import Mathlib

/-!
Shallow embedding of `cache.py`: a fully-associative LRU cache simulator
driven over all 24 orderings of a 4-nested loop kernel.

Python integers are modelled as `Int`; counters as `Nat`.  Python runtime
exceptions (`ValueError` from `deque(maxlen=negative)`, `ZeroDivisionError`
from `//` by zero, `IndexError` from `popleft` on an empty deque,
`KeyError` from a missing dict key) are modelled with `Except SimError`.
-/

/-- The Python runtime errors reachable in `cache.py`. -/
inductive SimError where
  | valueError
  | zeroDivisionError
  | indexError
  | keyError
deriving DecidableEq, Repr

/-- Outcome of one cache access: the branch taken at `if tag not in cache`. -/
inductive Outcome where
  | hit
  | miss
deriving DecidableEq, Repr

/-- The mutable state of `simulate_permutation`: the deque `cache`
(tags stored LRU at the head, MRU at the tail) and the two counters. -/
structure SimState where
  cache : List Int
  misses : Nat
  accesses : Nat
deriving DecidableEq, Repr

/-- Python floor division `a // b`; raises `ZeroDivisionError` when `b = 0`.
Python `//` on ints is floor division, i.e. `Int.fdiv`. -/
def pyFloorDiv (a b : Int) : Except SimError Int :=
  if b = 0 then .error .zeroDivisionError else .ok (Int.fdiv a b)

/-- `deque.append` with a `maxlen`: append at the right; if the length now
exceeds `maxlen`, drop elements from the left. -/
def dequeAppend (maxlen : Int) (q : List Int) (x : Int) : List Int :=
  let q2 := q ++ [x]
  if (q2.length : Int) > maxlen then q2.drop (q2.length - maxlen.toNat) else q2

/-- One cache access (`cache.py` lines 61-72): on a miss (`tag not in cache`)
increment `misses`, pop the head if `len(cache) == cache_lines` (raising
`IndexError` when the deque is empty), and append the tag at the tail; on a
hit remove the tag and re-append it at the tail.  `accesses` always
increments.  Returns the HIT/MISS outcome together with the new state. -/
def access (cache_lines : Int) (st : SimState) (tag : Int) :
    Except SimError (Outcome × SimState) :=
  if tag ∉ st.cache then
    if (st.cache.length : Int) = cache_lines then
      match st.cache with
      | [] => .error .indexError
      | _ :: rest =>
          .ok (.miss, ⟨dequeAppend cache_lines rest tag,
                       st.misses + 1, st.accesses + 1⟩)
    else
      .ok (.miss, ⟨dequeAppend cache_lines st.cache tag,
                   st.misses + 1, st.accesses + 1⟩)
  else
    .ok (.hit, ⟨dequeAppend cache_lines (st.cache.erase tag) tag,
                st.misses, st.accesses + 1⟩)

/-- The dict `base = {'X': 0, 'Y': N**3, 'Z': 2 * N**3}` as a function. -/
def base (N : Int) (arr : Char) : Int :=
  if arr = 'X' then 0 else if arr = 'Y' then N ^ 3 else 2 * N ^ 3

/-- The list `access_defs`: the four references of the innermost body, in
program order: read `Y[c][a][d]`, read `Z[d][b][c]`, read `X[a][d][c]`,
write `X[a][d][c]`. -/
def access_defs : List (Char × (Int → Int → Int → Int → Int × Int × Int)) :=
  [('Y', fun _a _b c _d => (c, _a, _d)),
   ('Z', fun _a b _c d => (d, b, _c)),
   ('X', fun a _b c d => (a, d, c)),
   ('X', fun a _b c d => (a, d, c))]

/-- Python `range(N)` for an int `N`: `[0, 1, ..., N-1]`, empty if `N ≤ 0`. -/
def rangeN (N : Int) : List Int :=
  (List.range N.toNat).map Int.ofNat

/-- Lookup in the dict built by `dict(zip(order, vals))`: the last binding
for a key wins; a missing key raises `KeyError`. -/
def dictGet (pairs : List (Char × Int)) (key : Char) : Except SimError Int :=
  match pairs.reverse.find? (fun p => p.1 == key) with
  | some p => .ok p.2
  | none => .error .keyError

/-- One reference (`cache.py` lines 57-72): compute the coordinate from the
loop variables, the flat address `base[arr] + (i*N + j)*N + k`, the tag
`addr // line_elems`, and perform the cache access. -/
def doRef (N cache_lines line_elems : Int) (a b c d : Int)
    (st : SimState) (p : Char × (Int → Int → Int → Int → Int × Int × Int)) :
    Except SimError SimState := do
  let (i, j, k) := p.2 a b c d
  let addr := base N p.1 + ((i * N + j) * N + k)
  let tag ← pyFloorDiv addr line_elems
  let (_, s2) ← access cache_lines st tag
  pure s2

/-- The `for arr, coord in access_defs` loop: the four references of one
innermost iteration, in order. -/
def doRefs (N cache_lines line_elems : Int) (a b c d : Int)
    (st : SimState) : Except SimError SimState :=
  access_defs.foldlM (doRef N cache_lines line_elems a b c d) st

/-- One innermost-loop body (`cache.py` lines 50-72): bind the counters
`(i1,i2,i3,i4)` to the ordering's labels via `dict(zip(order, vals))`,
recover `a,b,c,d` by key lookup, and perform the four references. -/
def simBody (order : List Char) (N cache_lines line_elems : Int)
    (i1 i2 i3 i4 : Int) (st : SimState) : Except SimError SimState := do
  let vals := [i1, i2, i3, i4]
  let idx := order.zip vals
  let a ← dictGet idx 'a'
  let b ← dictGet idx 'b'
  let c ← dictGet idx 'c'
  let d ← dictGet idx 'd'
  doRefs N cache_lines line_elems a b c d st

/-- The four nested `for` loops of `simulate_permutation`, threading the
simulation state. -/
def runSim (order : List Char) (N cache_lines line_elems : Int)
    (st : SimState) : Except SimError SimState :=
  (rangeN N).foldlM (fun s1 i1 =>
    (rangeN N).foldlM (fun s2 i2 =>
      (rangeN N).foldlM (fun s3 i3 =>
        (rangeN N).foldlM (fun s4 i4 =>
          simBody order N cache_lines line_elems i1 i2 i3 i4 s4) s3) s2) s1) st

/-- `simulate_permutation(order, N, cache_lines, line_elems)`: construct the
deque (`ValueError` if `cache_lines < 0`, as in `deque(maxlen=cache_lines)`),
run the nested loops from the fresh empty state, and return
`(accesses, misses)`. -/
def simulate_permutation (order : List Char) (N cache_lines line_elems : Int) :
    Except SimError (Nat × Nat) :=
  if cache_lines < 0 then .error .valueError
  else (runSim order N cache_lines line_elems ⟨[], 0, 0⟩).map
    (fun st => (st.accesses, st.misses))

/-- Selection-based permutation enumeration, as `itertools.permutations`
produces it: tuples in lexicographic order of the chosen source indices
(hence in lexicographic order of values when the input is sorted and
distinct).  The `Nat` argument is the number of elements still to pick. -/
def selectPerms : Nat → List Char → List (List Char)
  | 0, _ => [[]]
  | n + 1, xs =>
      (List.range xs.length).flatMap fun i =>
        match xs.get? i with
        | some x => (selectPerms n (xs.eraseIdx i)).map (fun p => x :: p)
        | none => []

/-- `itertools.permutations('abcd')` as used by `main`. -/
def permutations_abcd : List (List Char) :=
  selectPerms 4 ['a', 'b', 'c', 'd']

/-- The `for order in permutations('abcd')` loop of `main`: each ordering is
labelled and simulated independently. -/
def mainResults (N cache_lines line_elems : Int) :
    List (List Char × Except SimError (Nat × Nat)) :=
  permutations_abcd.map
    (fun order => (order, simulate_permutation order N cache_lines line_elems))

/-- The tag of one reference: the coordinate from the loop variables, the
flat address, then floor division by `line_elems` (the first half of
`doRef`, without the cache access). -/
def tagOf (N line_elems : Int) (a b c d : Int)
    (p : Char × (Int → Int → Int → Int → Int × Int × Int)) :
    Except SimError Int :=
  let (i, j, k) := p.2 a b c d
  pyFloorDiv (base N p.1 + ((i * N + j) * N + k)) line_elems

/-- The tag of each reference in a list, in order (the tag computations of
the reference loop, without the cache accesses). -/
def tagsOfRefs (N line_elems : Int) (a b c d : Int) :
    List (Char × (Int → Int → Int → Int → Int × Int × Int)) →
    Except SimError (List Int)
  | [] => .ok []
  | p :: ps => do
      let t ← tagOf N line_elems a b c d p
      let ts ← tagsOfRefs N line_elems a b c d ps
      pure (t :: ts)

/-- The four tags touched by one innermost iteration, in reference order:
each reference's flat address divided by `line_elems`. -/
def refTags (N line_elems : Int) (a b c d : Int) :
    Except SimError (List Int) :=
  tagsOfRefs N line_elems a b c d access_defs

/-- Feed a raw tag sequence through `access`, collecting the per-access
outcomes and the final state (the spec's LRU correctness fixture). -/
def runTags (cache_lines : Int) (st : SimState) :
    List Int → Except SimError (List Outcome × SimState)
  | [] => .ok ([], st)
  | t :: ts => do
      let (o, st2) ← access cache_lines st t
      let (os, stF) ← runTags cache_lines st2 ts
      pure (o :: os, stF)

/-- The cache-state invariant: no duplicate tags, and the recency list never
exceeds `cache_lines` entries. -/
def CacheInv (cache_lines : Int) (st : SimState) : Prop :=
  st.cache.Nodup ∧ (st.cache.length : Int) ≤ cache_lines

/-- A state transformer that always succeeds from an invariant state,
preserves the invariant, adds exactly `K` accesses, and at most `K2`
misses. -/
def GoodStep (cache_lines : Int) (K K2 : Nat)
    (f : SimState → Except SimError SimState) : Prop :=
  ∀ s, CacheInv cache_lines s → ∃ s2, f s = .ok s2 ∧ CacheInv cache_lines s2 ∧
    s2.accesses = s.accesses + K ∧ s2.misses ≤ s.misses + K2

/-! ## Helper lemmas -/

theorem ok_bind {α β : Type} (a : α) (f : α → Except SimError β) :
    (Except.ok a >>= f) = f a := rfl

theorem error_bind {α β : Type} (e : SimError) (f : α → Except SimError β) :
    ((Except.error e : Except SimError α) >>= f) = .error e := rfl

theorem ok_map {α β : Type} (a : α) (f : α → β) :
    (Except.ok a : Except SimError α).map f = .ok (f a) := rfl

theorem error_map {α β : Type} (e : SimError) (f : α → β) :
    (Except.error e : Except SimError α).map f = .error e := rfl

theorem dequeAppend_of_le (maxlen : Int) (q : List Int) (x : Int)
    (hq : (q.length : Int) + 1 ≤ maxlen) : dequeAppend maxlen q x = q ++ [x] := by
  have hne : ¬ (((q ++ [x]).length : Int) > maxlen) := by
    simp only [List.length_append, List.length_cons, List.length_nil]
    push_cast
    omega
  simp only [dequeAppend]
  rw [if_neg hne]

theorem access_hit (cache_lines : Int) (st : SimState) (tag : Int)
    (hmem : tag ∈ st.cache) (hlen : (st.cache.length : Int) ≤ cache_lines) :
    access cache_lines st tag =
      .ok (.hit, ⟨st.cache.erase tag ++ [tag], st.misses, st.accesses + 1⟩) := by
  have hpos : 1 ≤ st.cache.length :=
    List.length_pos.mpr (List.ne_nil_of_mem hmem)
  have hel : ((st.cache.erase tag).length : Int) + 1 ≤ cache_lines := by
    rw [List.length_erase_of_mem hmem]
    omega
  simp [access, hmem, dequeAppend_of_le _ _ _ hel]

theorem access_miss_full (cache_lines : Int) (st : SimState) (tag : Int)
    (hmem : tag ∉ st.cache) (hlen : (st.cache.length : Int) = cache_lines)
    (hd : Int) (rest : List Int) (hc : st.cache = hd :: rest) :
    access cache_lines st tag =
      .ok (.miss, ⟨rest ++ [tag], st.misses + 1, st.accesses + 1⟩) := by
  rw [hc] at hlen hmem
  simp only [List.length_cons] at hlen
  push_cast at hlen
  have hlen2 : (rest.length : Int) + 1 = cache_lines := hlen
  have hel : (rest.length : Int) + 1 ≤ cache_lines := le_of_eq hlen2
  simp only [List.mem_cons, not_or] at hmem
  simp [access, hc, hmem.1, hmem.2, hlen2, dequeAppend_of_le _ _ _ hel]

theorem access_miss_notfull (cache_lines : Int) (st : SimState) (tag : Int)
    (hmem : tag ∉ st.cache) (hlen : (st.cache.length : Int) < cache_lines) :
    access cache_lines st tag =
      .ok (.miss, ⟨st.cache ++ [tag], st.misses + 1, st.accesses + 1⟩) := by
  have hne : ¬ ((st.cache.length : Int) = cache_lines) := by omega
  have hel : (st.cache.length : Int) + 1 ≤ cache_lines := by omega
  simp [access, hmem, hne, dequeAppend_of_le _ _ _ hel]

theorem access_good (cache_lines : Int) (hcl : 1 ≤ cache_lines)
    (st : SimState) (tag : Int) (hst : CacheInv cache_lines st) :
    ∃ o st2, access cache_lines st tag = .ok (o, st2) ∧
      CacheInv cache_lines st2 ∧
      st2.accesses = st.accesses + 1 ∧ st2.misses ≤ st.misses + 1 ∧
      tag ∈ st2.cache ∧
      (tag ∈ st.cache → o = .hit ∧ st2.misses = st.misses) := by
  obtain ⟨hnd, hlen⟩ := hst
  by_cases hmem : tag ∈ st.cache
  · refine ⟨.hit, _, access_hit cache_lines st tag hmem hlen, ⟨?_, ?_⟩,
      rfl, ?_, ?_, fun _ => ⟨rfl, rfl⟩⟩
    · refine List.Nodup.append (hnd.erase tag) (List.nodup_singleton tag) ?_
      intro x hx hx2
      simp only [List.mem_singleton] at hx2
      subst hx2
      exact ((hnd.mem_erase_iff.mp hx).1) rfl
    · simp only [List.length_append, List.length_cons, List.length_nil,
        List.length_erase_of_mem hmem]
      have hpos : 1 ≤ st.cache.length :=
        List.length_pos.mpr (List.ne_nil_of_mem hmem)
      omega
    · simp
    · simp
  · by_cases hfull : (st.cache.length : Int) = cache_lines
    · have hpos : 0 < st.cache.length := by omega
      obtain ⟨hd, rest, hc⟩ : ∃ hd rest, st.cache = hd :: rest := by
        cases hcase : st.cache with
        | nil => rw [hcase] at hpos; simp at hpos
        | cons x xs => exact ⟨x, xs, rfl⟩
      refine ⟨.miss, _, access_miss_full cache_lines st tag hmem hfull hd rest hc,
        ⟨?_, ?_⟩, rfl, ?_, ?_, fun hx => absurd hx hmem⟩
      · have hnd2 : rest.Nodup := by
          rw [hc] at hnd
          exact (List.nodup_cons.mp hnd).2
        have hnm : tag ∉ rest := by
          rw [hc] at hmem
          intro hx
          exact hmem (List.mem_cons_of_mem hd hx)
        refine List.Nodup.append hnd2 (List.nodup_singleton tag) ?_
        intro x hx hx2
        simp only [List.mem_singleton] at hx2
        subst hx2
        exact hnm hx
      · rw [hc] at hfull
        simp only [List.length_cons] at hfull
        simp only [List.length_append, List.length_cons, List.length_nil]
        omega
      · simp
      · simp
    · have hlt : (st.cache.length : Int) < cache_lines := lt_of_le_of_ne hlen hfull
      refine ⟨.miss, _, access_miss_notfull cache_lines st tag hmem hlt,
        ⟨?_, ?_⟩, rfl, ?_, ?_, fun hx => absurd hx hmem⟩
      · refine List.Nodup.append hnd (List.nodup_singleton tag) ?_
        intro x hx hx2
        simp only [List.mem_singleton] at hx2
        subst hx2
        exact hmem hx
      · simp only [List.length_append, List.length_cons, List.length_nil]
        omega
      · simp
      · simp

theorem access_inv (cache_lines : Int) (hcl : 1 ≤ cache_lines)
    (st : SimState) (tag : Int) (hst : CacheInv cache_lines st)
    (o : Outcome) (st2 : SimState)
    (hacc : access cache_lines st tag = .ok (o, st2)) :
    CacheInv cache_lines st2 := by
  obtain ⟨o2, s2, heq, hinv, _⟩ := access_good cache_lines hcl st tag hst
  rw [heq] at hacc
  cases hacc
  exact hinv

theorem goodStep_foldlM {α : Type} (cache_lines : Int) (K K2 : Nat)
    (f : SimState → α → Except SimError SimState) (l : List α)
    (h : ∀ a ∈ l, GoodStep cache_lines K K2 (fun s => f s a)) :
    GoodStep cache_lines (K * l.length) (K2 * l.length)
      (fun s => l.foldlM f s) := by
  induction l with
  | nil =>
      intro s hs
      exact ⟨s, rfl, hs, by simp, by simp⟩
  | cons a t ih =>
      intro s hs
      obtain ⟨s1, hf, hi1, ha1, hm1⟩ := h a (List.mem_cons_self a t) s hs
      obtain ⟨s2, hfold, hi2, ha2, hm2⟩ :=
        ih (fun b hb => h b (List.mem_cons_of_mem a hb)) s1 hi1
      have hf2 : f s a = Except.ok s1 := hf
      have hfold2 : List.foldlM f s1 t = Except.ok s2 := hfold
      refine ⟨s2, ?_, hi2, ?_, ?_⟩
      · show List.foldlM f s (a :: t) = Except.ok s2
        rw [List.foldlM_cons, hf2, ok_bind]
        exact hfold2
      · rw [ha2, ha1]
        simp only [List.length_cons]
        ring
      · simp only [List.length_cons]
        calc s2.misses ≤ s1.misses + K2 * t.length := hm2
          _ ≤ s.misses + K2 + K2 * t.length := by omega
          _ = s.misses + K2 * (t.length + 1) := by ring

theorem tagOf_ok (N line_elems : Int) (hle : line_elems ≠ 0) (a b c d : Int)
    (p : Char × (Int → Int → Int → Int → Int × Int × Int)) :
    ∃ t, tagOf N line_elems a b c d p = .ok t := by
  rcases hp : p.2 a b c d with ⟨i, j, k⟩
  refine ⟨Int.fdiv (base N p.1 + ((i * N + j) * N + k)) line_elems, ?_⟩
  simp [tagOf, hp, pyFloorDiv, hle]

theorem doRef_good (N cache_lines line_elems : Int) (hcl : 1 ≤ cache_lines)
    (hle : line_elems ≠ 0) (a b c d : Int)
    (p : Char × (Int → Int → Int → Int → Int × Int × Int))
    (s : SimState) (hs : CacheInv cache_lines s) :
    ∃ t s2, tagOf N line_elems a b c d p = .ok t ∧
      doRef N cache_lines line_elems a b c d s p = .ok s2 ∧
      CacheInv cache_lines s2 ∧ s2.accesses = s.accesses + 1 ∧
      s2.misses ≤ s.misses + 1 ∧ t ∈ s2.cache ∧
      (t ∈ s.cache → s2.misses = s.misses) := by
  rcases hp : p.2 a b c d with ⟨i, j, k⟩
  obtain ⟨o, s2, hacc, hinv, haccs, hmiss, hmem, hhit⟩ :=
    access_good cache_lines hcl s
      (Int.fdiv (base N p.1 + ((i * N + j) * N + k)) line_elems) hs
  refine ⟨_, s2, ?_, ?_, hinv, haccs, hmiss, hmem, fun hx => (hhit hx).2⟩
  · simp [tagOf, hp, pyFloorDiv, hle]
  · simp [doRef, hp, pyFloorDiv, hle, ok_bind, hacc, Except.map_ok]

theorem doRefs_good (N cache_lines line_elems : Int) (hcl : 1 ≤ cache_lines)
    (hle : line_elems ≠ 0) (a b c d : Int) :
    GoodStep cache_lines 4 3 (doRefs N cache_lines line_elems a b c d) := by
  intro s hs
  obtain ⟨t1, s1, ht1, hr1, hi1, ha1, hm1, hmem1, _⟩ :=
    doRef_good N cache_lines line_elems hcl hle a b c d
      ('Y', fun _a _b c _d => (c, _a, _d)) s hs
  obtain ⟨t2, s2, ht2, hr2, hi2, ha2, hm2, hmem2, _⟩ :=
    doRef_good N cache_lines line_elems hcl hle a b c d
      ('Z', fun _a b _c d => (d, b, _c)) s1 hi1
  obtain ⟨t3, s3, ht3, hr3, hi3, ha3, hm3, hmem3, _⟩ :=
    doRef_good N cache_lines line_elems hcl hle a b c d
      ('X', fun a _b c d => (a, d, c)) s2 hi2
  obtain ⟨t4, s4, ht4, hr4, hi4, ha4, hm4, hmem4, hhit4⟩ :=
    doRef_good N cache_lines line_elems hcl hle a b c d
      ('X', fun a _b c d => (a, d, c)) s3 hi3
  have ht34 : t4 = t3 := by
    rw [ht3] at ht4
    injection ht4 with h
    exact h.symm
  have hm4e : s4.misses = s3.misses := hhit4 (ht34 ▸ hmem3)
  refine ⟨s4, ?_, hi4, ?_, ?_⟩
  · show doRefs N cache_lines line_elems a b c d s = Except.ok s4
    rw [doRefs]
    show access_defs.foldlM (doRef N cache_lines line_elems a b c d) s =
      Except.ok s4
    rw [access_defs]
    rw [List.foldlM_cons, hr1, ok_bind, List.foldlM_cons, hr2, ok_bind,
        List.foldlM_cons, hr3, ok_bind, List.foldlM_cons, hr4, ok_bind,
        List.foldlM_nil]
    rfl
  · omega
  · omega

theorem mem_zip_left : ∀ (ks : List Char) (vs : List Int) (key : Char),
    key ∈ ks → ks.length ≤ vs.length → ∃ v, (key, v) ∈ ks.zip vs := by
  intro ks
  induction ks with
  | nil =>
      intro vs key hk
      simp at hk
  | cons k kt ih =>
      intro vs key hk hlen
      cases vs with
      | nil => simp at hlen
      | cons v vt =>
          rcases List.mem_cons.mp hk with h | h
          · exact ⟨v, by simp [h]⟩
          · obtain ⟨w, hw⟩ := ih vt key h (by
              simp only [List.length_cons] at hlen
              omega)
            exact ⟨w, by simp [List.mem_cons, hw]⟩

theorem dictGet_ok (ks : List Char) (vs : List Int) (key : Char)
    (hk : key ∈ ks) (hlen : ks.length ≤ vs.length) :
    ∃ v, dictGet (ks.zip vs) key = .ok v := by
  obtain ⟨v, hv⟩ := mem_zip_left ks vs key hk hlen
  have hex : ∃ x ∈ (ks.zip vs).reverse, (fun p => p.1 == key) x = true :=
    ⟨(key, v), by simp [hv], by simp⟩
  have hsome := List.find?_isSome.mpr hex
  cases hfind : (ks.zip vs).reverse.find? (fun p => p.1 == key) with
  | none => rw [hfind] at hsome; simp at hsome
  | some p => exact ⟨p.2, by simp [dictGet, hfind]⟩

theorem simBody_good (order : List Char) (N cache_lines line_elems : Int)
    (hcl : 1 ≤ cache_lines) (hle : line_elems ≠ 0)
    (hka : 'a' ∈ order) (hkb : 'b' ∈ order) (hkc : 'c' ∈ order)
    (hkd : 'd' ∈ order) (hlen : order.length ≤ 4) (i1 i2 i3 i4 : Int) :
    GoodStep cache_lines 4 3
      (simBody order N cache_lines line_elems i1 i2 i3 i4) := by
  intro s hs
  have hlen4 : order.length ≤ ([i1, i2, i3, i4] : List Int).length := by
    simpa using hlen
  obtain ⟨va, hva⟩ := dictGet_ok order [i1, i2, i3, i4] 'a' hka hlen4
  obtain ⟨vb, hvb⟩ := dictGet_ok order [i1, i2, i3, i4] 'b' hkb hlen4
  obtain ⟨vc, hvc⟩ := dictGet_ok order [i1, i2, i3, i4] 'c' hkc hlen4
  obtain ⟨vd, hvd⟩ := dictGet_ok order [i1, i2, i3, i4] 'd' hkd hlen4
  obtain ⟨s2, hr, hi, hacc, hm⟩ :=
    doRefs_good N cache_lines line_elems hcl hle va vb vc vd s hs
  refine ⟨s2, ?_, hi, hacc, hm⟩
  simp [simBody, hva, hvb, hvc, hvd, ok_bind, hr]

theorem rangeN_length (N : Int) : (rangeN N).length = N.toNat := by
  simp [rangeN]

theorem rangeN_cons (N : Int) (hN : 1 ≤ N) :
    ∃ rest, rangeN N = (0 : Int) :: rest := by
  have hn : N.toNat = (N.toNat - 1) + 1 := by omega
  refine ⟨(List.range (N.toNat - 1)).map (fun i => (Int.ofNat (Nat.succ i))), ?_⟩
  rw [rangeN, hn, List.range_succ_eq_map]
  simp [List.map_map, Function.comp]

theorem foldlM_cons_error {α : Type} (f : SimState → α → Except SimError SimState)
    (a : α) (l : List α) (s : SimState) (e : SimError)
    (hf : f s a = .error e) : List.foldlM f s (a :: l) = .error e := by
  rw [List.foldlM_cons, hf, error_bind]

theorem runSim_good (order : List Char) (N cache_lines line_elems : Int)
    (hcl : 1 ≤ cache_lines) (hle : line_elems ≠ 0)
    (hka : 'a' ∈ order) (hkb : 'b' ∈ order) (hkc : 'c' ∈ order)
    (hkd : 'd' ∈ order) (hlen : order.length ≤ 4) :
    GoodStep cache_lines (4 * N.toNat ^ 4) (3 * N.toNat ^ 4)
      (fun st => runSim order N cache_lines line_elems st) := by
  have h4 : ∀ i1 i2 i3 : Int,
      GoodStep cache_lines (4 * N.toNat) (3 * N.toNat)
        (fun s => (rangeN N).foldlM
          (fun s4 i4 => simBody order N cache_lines line_elems i1 i2 i3 i4 s4)
          s) := by
    intro i1 i2 i3
    have h := goodStep_foldlM cache_lines 4 3
      (fun s4 i4 => simBody order N cache_lines line_elems i1 i2 i3 i4 s4)
      (rangeN N)
      (fun i4 _ => simBody_good order N cache_lines line_elems hcl hle
        hka hkb hkc hkd hlen i1 i2 i3 i4)
    rwa [rangeN_length] at h
  have h3 : ∀ i1 i2 : Int,
      GoodStep cache_lines (4 * N.toNat * N.toNat) (3 * N.toNat * N.toNat)
        (fun s => (rangeN N).foldlM
          (fun s3 i3 => (rangeN N).foldlM
            (fun s4 i4 => simBody order N cache_lines line_elems i1 i2 i3 i4 s4)
            s3) s) := by
    intro i1 i2
    have h := goodStep_foldlM cache_lines (4 * N.toNat) (3 * N.toNat)
      (fun s3 i3 => (rangeN N).foldlM
        (fun s4 i4 => simBody order N cache_lines line_elems i1 i2 i3 i4 s4) s3)
      (rangeN N)
      (fun i3 _ => h4 i1 i2 i3)
    rwa [rangeN_length] at h
  have h2 : ∀ i1 : Int,
      GoodStep cache_lines (4 * N.toNat * N.toNat * N.toNat)
        (3 * N.toNat * N.toNat * N.toNat)
        (fun s => (rangeN N).foldlM
          (fun s2 i2 => (rangeN N).foldlM
            (fun s3 i3 => (rangeN N).foldlM
              (fun s4 i4 =>
                simBody order N cache_lines line_elems i1 i2 i3 i4 s4)
              s3) s2) s) := by
    intro i1
    have h := goodStep_foldlM cache_lines (4 * N.toNat * N.toNat)
      (3 * N.toNat * N.toNat)
      (fun s2 i2 => (rangeN N).foldlM
        (fun s3 i3 => (rangeN N).foldlM
          (fun s4 i4 => simBody order N cache_lines line_elems i1 i2 i3 i4 s4)
          s3) s2)
      (rangeN N)
      (fun i2 _ => h3 i1 i2)
    rwa [rangeN_length] at h
  have h1 : GoodStep cache_lines (4 * N.toNat * N.toNat * N.toNat * N.toNat)
      (3 * N.toNat * N.toNat * N.toNat * N.toNat)
      (fun s => (rangeN N).foldlM
        (fun s1 i1 => (rangeN N).foldlM
          (fun s2 i2 => (rangeN N).foldlM
            (fun s3 i3 => (rangeN N).foldlM
              (fun s4 i4 =>
                simBody order N cache_lines line_elems i1 i2 i3 i4 s4)
              s3) s2) s1) s) := by
    have h := goodStep_foldlM cache_lines (4 * N.toNat * N.toNat * N.toNat)
      (3 * N.toNat * N.toNat * N.toNat)
      (fun s1 i1 => (rangeN N).foldlM
        (fun s2 i2 => (rangeN N).foldlM
          (fun s3 i3 => (rangeN N).foldlM
            (fun s4 i4 => simBody order N cache_lines line_elems i1 i2 i3 i4 s4)
            s3) s2) s1)
      (rangeN N)
      (fun i1 _ => h2 i1)
    rwa [rangeN_length] at h
  have hK : 4 * N.toNat * N.toNat * N.toNat * N.toNat = 4 * N.toNat ^ 4 := by
    ring
  have hK2 : 3 * N.toNat * N.toNat * N.toNat * N.toNat = 3 * N.toNat ^ 4 := by
    ring
  rw [hK, hK2] at h1
  exact h1

theorem runTags_inv : ∀ (tags : List Int) (cache_lines : Int),
    1 ≤ cache_lines → ∀ (st : SimState), CacheInv cache_lines st →
    ∀ (os : List Outcome) (stF : SimState),
    runTags cache_lines st tags = .ok (os, stF) → CacheInv cache_lines stF := by
  intro tags
  induction tags with
  | nil =>
      intro cl hcl st hst os stF h
      simp only [runTags] at h
      injection h with h2
      injection h2 with _ h3
      rw [← h3]
      exact hst
  | cons t ts ih =>
      intro cl hcl st hst os stF h
      simp only [runTags] at h
      cases hacc : access cl st t with
      | error e =>
          rw [hacc, error_bind] at h
          cases h
      | ok r =>
          rcases r with ⟨o, st2⟩
          rw [hacc, ok_bind] at h
          cases hrun : runTags cl st2 ts with
          | error e =>
              rw [hrun, error_bind] at h
              cases h
          | ok r2 =>
              rcases r2 with ⟨os2, stF2⟩
              rw [hrun, ok_bind] at h
              have hst2 : CacheInv cl st2 := access_inv cl hcl st t hst o st2 hacc
              have h2 : ((o :: os2 : List Outcome), stF2) = (os, stF) :=
                Except.ok.inj h
              have hF : stF2 = stF := congrArg Prod.snd h2
              rw [← hF]
              exact ih cl hcl st2 hst2 os2 stF2 hrun

theorem doRefs_zero_div (N cache_lines : Int) (a b c d : Int) (st : SimState) :
    doRefs N cache_lines 0 a b c d st = .error .zeroDivisionError := by
  have h1 : doRef N cache_lines 0 a b c d st
      ('Y', fun _a _b c _d => (c, _a, _d)) = .error .zeroDivisionError := by
    simp [doRef, pyFloorDiv, error_bind]
  rw [doRefs]
  show access_defs.foldlM (doRef N cache_lines 0 a b c d) st =
    Except.error SimError.zeroDivisionError
  rw [access_defs]
  exact foldlM_cons_error _ _ _ _ _ h1

theorem simBody_zero_div (order : List Char) (N cache_lines : Int)
    (hka : 'a' ∈ order) (hkb : 'b' ∈ order) (hkc : 'c' ∈ order)
    (hkd : 'd' ∈ order) (hlen : order.length ≤ 4)
    (i1 i2 i3 i4 : Int) (st : SimState) :
    simBody order N cache_lines 0 i1 i2 i3 i4 st =
      .error .zeroDivisionError := by
  have hlen4 : order.length ≤ ([i1, i2, i3, i4] : List Int).length := by
    simpa using hlen
  obtain ⟨va, hva⟩ := dictGet_ok order [i1, i2, i3, i4] 'a' hka hlen4
  obtain ⟨vb, hvb⟩ := dictGet_ok order [i1, i2, i3, i4] 'b' hkb hlen4
  obtain ⟨vc, hvc⟩ := dictGet_ok order [i1, i2, i3, i4] 'c' hkc hlen4
  obtain ⟨vd, hvd⟩ := dictGet_ok order [i1, i2, i3, i4] 'd' hkd hlen4
  simp [simBody, hva, hvb, hvc, hvd, ok_bind, doRefs_zero_div]

theorem access_cl0_empty (tag : Int) (m acc : Nat) :
    access 0 ⟨[], m, acc⟩ tag = .error .indexError := by
  simp [access]

theorem doRefs_cl0 (N line_elems : Int) (hle : line_elems ≠ 0)
    (a b c d : Int) (m acc : Nat) :
    doRefs N 0 line_elems a b c d ⟨[], m, acc⟩ = .error .indexError := by
  have h1 : doRef N 0 line_elems a b c d ⟨[], m, acc⟩
      ('Y', fun _a _b c _d => (c, _a, _d)) = .error .indexError := by
    simp [doRef, pyFloorDiv, hle, ok_bind, access_cl0_empty, error_bind]
  rw [doRefs]
  show access_defs.foldlM (doRef N 0 line_elems a b c d) ⟨[], m, acc⟩ =
    Except.error SimError.indexError
  rw [access_defs]
  exact foldlM_cons_error _ _ _ _ _ h1

theorem simBody_cl0 (order : List Char) (N line_elems : Int)
    (hle : line_elems ≠ 0)
    (hka : 'a' ∈ order) (hkb : 'b' ∈ order) (hkc : 'c' ∈ order)
    (hkd : 'd' ∈ order) (hlen : order.length ≤ 4)
    (i1 i2 i3 i4 : Int) (m acc : Nat) :
    simBody order N 0 line_elems i1 i2 i3 i4 ⟨[], m, acc⟩ =
      .error .indexError := by
  have hlen4 : order.length ≤ ([i1, i2, i3, i4] : List Int).length := by
    simpa using hlen
  obtain ⟨va, hva⟩ := dictGet_ok order [i1, i2, i3, i4] 'a' hka hlen4
  obtain ⟨vb, hvb⟩ := dictGet_ok order [i1, i2, i3, i4] 'b' hkb hlen4
  obtain ⟨vc, hvc⟩ := dictGet_ok order [i1, i2, i3, i4] 'c' hkc hlen4
  obtain ⟨vd, hvd⟩ := dictGet_ok order [i1, i2, i3, i4] 'd' hkd hlen4
  simp [simBody, hva, hvb, hvc, hvd, ok_bind, doRefs_cl0 N line_elems hle]

theorem runSim_first_error (order : List Char) (N cache_lines line_elems : Int)
    (hN : 1 ≤ N) (e : SimError) (st : SimState)
    (h : simBody order N cache_lines line_elems 0 0 0 0 st = .error e) :
    runSim order N cache_lines line_elems st = .error e := by
  obtain ⟨rest, hr⟩ := rangeN_cons N hN
  have h4 : (rangeN N).foldlM
      (fun s4 i4 => simBody order N cache_lines line_elems 0 0 0 i4 s4) st =
      .error e := by
    rw [hr]
    exact foldlM_cons_error _ _ _ _ _ h
  have h3 : (rangeN N).foldlM
      (fun s3 i3 => (rangeN N).foldlM
        (fun s4 i4 => simBody order N cache_lines line_elems 0 0 i3 i4 s4)
        s3) st = .error e := by
    rw [hr] at h4 ⊢
    exact foldlM_cons_error _ _ _ _ _ h4
  have h2 : (rangeN N).foldlM
      (fun s2 i2 => (rangeN N).foldlM
        (fun s3 i3 => (rangeN N).foldlM
          (fun s4 i4 => simBody order N cache_lines line_elems 0 i2 i3 i4 s4)
          s3) s2) st = .error e := by
    rw [hr] at h3 ⊢
    exact foldlM_cons_error _ _ _ _ _ h3
  have h1 : (rangeN N).foldlM
      (fun s1 i1 => (rangeN N).foldlM
        (fun s2 i2 => (rangeN N).foldlM
          (fun s3 i3 => (rangeN N).foldlM
            (fun s4 i4 => simBody order N cache_lines line_elems i1 i2 i3 i4 s4)
            s3) s2) s1) st = .error e := by
    rw [hr] at h2 ⊢
    exact foldlM_cons_error _ _ _ _ _ h2
  exact h1

theorem perms_keys : ∀ o ∈ permutations_abcd,
    ('a' ∈ o ∧ 'b' ∈ o ∧ 'c' ∈ o ∧ 'd' ∈ o) ∧ o.length = 4 := by
  decide

theorem runTags_cons_ok (cache_lines : Int) (st : SimState) (t : Int)
    (ts : List Int) (o : Outcome) (st2 : SimState)
    (h : access cache_lines st t = .ok (o, st2)) :
    runTags cache_lines st (t :: ts) =
      (runTags cache_lines st2 ts).map (fun r => (o :: r.1, r.2)) := by
  simp only [runTags, h, ok_bind]
  cases hr : runTags cache_lines st2 ts with
  | error e => rfl
  | ok r =>
      rcases r with ⟨os, stF⟩
      rfl

theorem rangeN_nil (N : Int) (hN : N ≤ 0) : rangeN N = [] := by
  rw [rangeN]
  have h0 : N.toNat = 0 := by omega
  rw [h0]
  rfl

theorem simulate_empty_iter (order : List Char) (N cache_lines line_elems : Int)
    (hN : N ≤ 0) (hcl : 0 ≤ cache_lines) :
    simulate_permutation order N cache_lines line_elems = .ok (0, 0) := by
  have hncl : ¬ cache_lines < 0 := by omega
  simp only [simulate_permutation, if_neg hncl, runSim, rangeN_nil N hN,
    List.foldlM_nil]
  rfl

theorem simulate_zero_div (order : List Char) (N cache_lines : Int)
    (hN : 1 ≤ N) (hcl : 1 ≤ cache_lines) (ho : order ∈ permutations_abcd) :
    simulate_permutation order N cache_lines 0 =
      .error .zeroDivisionError := by
  obtain ⟨⟨hka, hkb, hkc, hkd⟩, hlen⟩ := perms_keys order ho
  have hncl : ¬ cache_lines < 0 := by omega
  have hb := simBody_zero_div order N cache_lines hka hkb hkc hkd
    (le_of_eq hlen) 0 0 0 0 ⟨[], 0, 0⟩
  have hr := runSim_first_error order N cache_lines 0 hN _ _ hb
  simp only [simulate_permutation, if_neg hncl, hr, error_map]

theorem simulate_cl0 (order : List Char) (N line_elems : Int)
    (hN : 1 ≤ N) (hle : 1 ≤ line_elems) (ho : order ∈ permutations_abcd) :
    simulate_permutation order N 0 line_elems = .error .indexError := by
  obtain ⟨⟨hka, hkb, hkc, hkd⟩, hlen⟩ := perms_keys order ho
  have hle0 : line_elems ≠ 0 := by omega
  have hb := simBody_cl0 order N line_elems hle0 hka hkb hkc hkd
    (le_of_eq hlen) 0 0 0 0 0 0
  have hr := runSim_first_error order N 0 line_elems hN _ _ hb
  have hncl : ¬ (0 : Int) < 0 := by omega
  simp only [simulate_permutation, if_neg hncl, hr, error_map]

theorem simulate_neg_cl (order : List Char) (N cache_lines line_elems : Int)
    (hcl : cache_lines < 0) :
    simulate_permutation order N cache_lines line_elems =
      .error .valueError := by
  simp only [simulate_permutation, if_pos hcl]

/-! ## Claim theorems -/

/-- C1: for every configuration with `N ≥ 1`, `cache_lines ≥ 1`,
`line_elems ≥ 1` and every one of the 24 orderings, `simulate_permutation`
returns an accesses count equal to exactly `4 * N^4`. -/
theorem c1_accesses_exact (N cache_lines line_elems : Int)
    (_hN : 1 ≤ N) (hcl : 1 ≤ cache_lines) (hle : 1 ≤ line_elems) :
    ∀ order ∈ permutations_abcd, ∃ m : Nat,
      simulate_permutation order N cache_lines line_elems =
        .ok (4 * N.toNat ^ 4, m) := by
  intro order ho
  obtain ⟨⟨hka, hkb, hkc, hkd⟩, hlen⟩ := perms_keys order ho
  have hle0 : line_elems ≠ 0 := by omega
  obtain ⟨stF, hrun, hinv, hacc, hm⟩ :=
    runSim_good order N cache_lines line_elems hcl hle0 hka hkb hkc hkd
      (le_of_eq hlen) ⟨[], 0, 0⟩ ⟨List.nodup_nil, by simp; omega⟩
  refine ⟨stF.misses, ?_⟩
  have hncl : ¬ cache_lines < 0 := by omega
  have hrun2 : runSim order N cache_lines line_elems ⟨[], 0, 0⟩ =
      Except.ok stF := hrun
  rw [simulate_permutation, if_neg hncl, hrun2, ok_map]
  simp only at hacc
  simp [hacc]

/-- C1 witness at `N = 1`, `cache_lines = 1`, `line_elems = 1`, ordering
`abcd`. -/
theorem c1_accesses_exact_witness :
    ∃ m : Nat, simulate_permutation ['a', 'b', 'c', 'd'] 1 1 1 =
      .ok (4 * (1 : Int).toNat ^ 4, m) :=
  c1_accesses_exact 1 1 1 (by decide) (by decide) (by decide)
    ['a', 'b', 'c', 'd'] (by decide)

/-- C4 counterexample: with the invalid configuration `N = 0` the program
does not abort; it runs every loop zero times and returns the zero result
`(0, 0)`, contradicting "aborts the entire run ... and never proceeds to
produce zero or garbage results". -/
theorem c4_counterexample :
    simulate_permutation ['a', 'b', 'c', 'd'] 0 64 4 = .ok (0, 0) := rfl

/-- C4 (amended): the code performs no configuration validation at entry.
With `N ≤ 0` and `cache_lines ≥ 0` every ordering silently returns the zero
result `(0, 0)`; with `cache_lines < 0` the run fails with `ValueError` from
the deque construction; with `line_elems = 0` (valid `N`, `cache_lines`) it
fails with an uncaught `ZeroDivisionError` during the first access; with
`cache_lines = 0` (valid `N`, `line_elems`) it fails with an uncaught
`IndexError` on the first miss.  Failures arise mid-simulation, not from an
entry validation step with a descriptive message. -/
theorem c4_no_validation (N cache_lines line_elems : Int) :
    (N ≤ 0 → 0 ≤ cache_lines → ∀ order : List Char,
      simulate_permutation order N cache_lines line_elems = .ok (0, 0)) ∧
    (cache_lines < 0 → ∀ order : List Char,
      simulate_permutation order N cache_lines line_elems =
        .error .valueError) ∧
    (1 ≤ N → 1 ≤ cache_lines → ∀ order ∈ permutations_abcd,
      simulate_permutation order N cache_lines 0 =
        .error .zeroDivisionError) ∧
    (1 ≤ N → 1 ≤ line_elems → ∀ order ∈ permutations_abcd,
      simulate_permutation order N 0 line_elems = .error .indexError) := by
  refine ⟨?_, ?_, ?_, ?_⟩
  · intro hN hcl order
    exact simulate_empty_iter order N cache_lines line_elems hN hcl
  · intro hcl order
    exact simulate_neg_cl order N cache_lines line_elems hcl
  · intro hN hcl order ho
    exact simulate_zero_div order N cache_lines hN hcl ho
  · intro hN hle order ho
    exact simulate_cl0 order N line_elems hN hle ho

/-- C4 witness: a negative `cache_lines` yields `ValueError`, not a
validated abort. -/
theorem c4_no_validation_witness :
    simulate_permutation ['a', 'b', 'c', 'd'] 3 (-2) 4 =
      .error .valueError :=
  (c4_no_validation 3 (-2) 4).2.1 (by decide) ['a', 'b', 'c', 'd']

/-- C8: for every `N ≤ 0`, every `cache_lines ≥ 0` and any `line_elems`,
`simulate_permutation` returns `(0, 0)` without raising any error: the
nested range loops execute zero iterations, and no configuration check
rejects the non-positive `N`. -/
theorem c8_nonpositive_n (order : List Char) (N cache_lines line_elems : Int)
    (hN : N ≤ 0) (hcl : 0 ≤ cache_lines) :
    simulate_permutation order N cache_lines line_elems = .ok (0, 0) :=
  simulate_empty_iter order N cache_lines line_elems hN hcl

/-- C8 witness at `N = -1`, `cache_lines = 0`, `line_elems = 7`. -/
theorem c8_nonpositive_n_witness :
    simulate_permutation ['a', 'b', 'c', 'd'] (-1) 0 7 = .ok (0, 0) :=
  c8_nonpositive_n ['a', 'b', 'c', 'd'] (-1) 0 7 (by decide) (by decide)

/-- C9: with `N ≥ 1`, `cache_lines ≥ 1` and `line_elems = 0`, the
simulation raises `ZeroDivisionError` at the first tag computation
(`addr // line_elems`): the whole run errors, the reference loop errors
from any state (no cache state is modified and no counter incremented),
and already the first reference's tag computation is the error. -/
theorem c9_zero_division (N cache_lines : Int)
    (hN : 1 ≤ N) (hcl : 1 ≤ cache_lines) :
    (∀ order ∈ permutations_abcd,
      simulate_permutation order N cache_lines 0 =
        .error .zeroDivisionError) ∧
    (∀ (a b c d : Int) (st : SimState),
      doRefs N cache_lines 0 a b c d st = .error .zeroDivisionError) ∧
    (∀ a b c d : Int,
      tagOf N 0 a b c d ('Y', fun _a _b c _d => (c, _a, _d)) =
        .error .zeroDivisionError) := by
  refine ⟨?_, ?_, ?_⟩
  · intro order ho
    exact simulate_zero_div order N cache_lines hN hcl ho
  · intro a b c d st
    exact doRefs_zero_div N cache_lines a b c d st
  · intro a b c d
    simp [tagOf, pyFloorDiv]

/-- C9 witness at `N = 1`, `cache_lines = 1`, ordering `abcd`. -/
theorem c9_zero_division_witness :
    simulate_permutation ['a', 'b', 'c', 'd'] 1 1 0 =
      .error .zeroDivisionError :=
  (c9_zero_division 1 1 (by decide) (by decide)).1
    ['a', 'b', 'c', 'd'] (by decide)

/-- C10: with `N ≥ 1`, `line_elems ≥ 1` and `cache_lines ≤ 0`,
`simulate_permutation` never returns a result: `cache_lines < 0` raises
`ValueError` at the deque construction before any iteration, and
`cache_lines = 0` raises `IndexError` from `popleft` on the empty deque at
the first miss. -/
theorem c10_cl_nonpositive (N cache_lines line_elems : Int)
    (hN : 1 ≤ N) (hle : 1 ≤ line_elems) :
    (cache_lines < 0 → ∀ order : List Char,
      simulate_permutation order N cache_lines line_elems =
        .error .valueError) ∧
    (∀ order ∈ permutations_abcd,
      simulate_permutation order N 0 line_elems = .error .indexError) ∧
    (cache_lines ≤ 0 → ∀ order ∈ permutations_abcd, ∃ e : SimError,
      simulate_permutation order N cache_lines line_elems = .error e) := by
  refine ⟨?_, ?_, ?_⟩
  · intro hcl order
    exact simulate_neg_cl order N cache_lines line_elems hcl
  · intro order ho
    exact simulate_cl0 order N line_elems hN hle ho
  · intro hcl order ho
    rcases lt_or_eq_of_le hcl with hlt | heq
    · exact ⟨.valueError, simulate_neg_cl order N cache_lines line_elems hlt⟩
    · rw [heq]
      exact ⟨.indexError, simulate_cl0 order N line_elems hN hle ho⟩

/-- C10 witness: `cache_lines = 0` at `N = 1`, `line_elems = 1`, ordering
`abcd` raises `IndexError`. -/
theorem c10_cl_nonpositive_witness :
    simulate_permutation ['a', 'b', 'c', 'd'] 1 0 1 = .error .indexError :=
  (c10_cl_nonpositive 1 0 1 (by decide) (by decide)).2.1
    ['a', 'b', 'c', 'd'] (by decide)

/-- C2: the access operation implements exact LRU.  On a miss the miss
counter is incremented, the head (LRU) tag is evicted when the current size
equals `cache_lines`, and the tag is appended at the tail; on a hit the tag
is removed from its position and re-inserted at the tail with the miss
counter unchanged (only the access counter advances).  The fixture
[1, 2, 3, 1, 4] on a fresh cache with `cache_lines = 3` yields
[MISS, MISS, MISS, HIT, MISS] and final contents [3, 1, 4] in LRU→MRU
order. -/
theorem c2_lru_semantics (cache_lines : Int) (st : SimState) (tag : Int)
    (hlen : (st.cache.length : Int) ≤ cache_lines) :
    (tag ∉ st.cache → (st.cache.length : Int) < cache_lines →
      access cache_lines st tag =
        .ok (.miss, ⟨st.cache ++ [tag], st.misses + 1, st.accesses + 1⟩)) ∧
    (tag ∉ st.cache → (st.cache.length : Int) = cache_lines →
      ∀ (hd : Int) (rest : List Int), st.cache = hd :: rest →
      access cache_lines st tag =
        .ok (.miss, ⟨rest ++ [tag], st.misses + 1, st.accesses + 1⟩)) ∧
    (tag ∈ st.cache →
      access cache_lines st tag =
        .ok (.hit, ⟨st.cache.erase tag ++ [tag], st.misses,
                    st.accesses + 1⟩)) ∧
    runTags 3 ⟨[], 0, 0⟩ [1, 2, 3, 1, 4] =
      .ok ([.miss, .miss, .miss, .hit, .miss], ⟨[3, 1, 4], 4, 5⟩) := by
  refine ⟨fun hm hl => access_miss_notfull cache_lines st tag hm hl,
    fun hm hl hd rest hc =>
      access_miss_full cache_lines st tag hm hl hd rest hc,
    fun hm => access_hit cache_lines st tag hm hlen, ?_⟩
  rfl

/-- C2 witness: a hit on tag 2 in cache [1, 2] under `cache_lines = 3`. -/
theorem c2_lru_semantics_witness :
    access 3 ⟨[1, 2], 0, 2⟩ 2 =
      .ok (.hit, ⟨([1, 2] : List Int).erase 2 ++ [2], 0, 3⟩) :=
  (c2_lru_semantics 3 ⟨[1, 2], 0, 2⟩ 2 (by decide)).2.2.1 (by decide)

/-- C3: each iteration produces exactly four references in the fixed order
Y(c,a,d), Z(d,b,c), X(a,d,c) read, X(a,d,c) write; each maps to the flat
address `base[array] + (i*N + j)*N + k` with base offsets X=0, Y=N³, Z=2N³,
and each address maps to the tag `address // line_elems`. -/
theorem c3_address_generation (N line_elems : Int) (hle : line_elems ≠ 0)
    (a b c d : Int) :
    base N 'X' = 0 ∧ base N 'Y' = N ^ 3 ∧ base N 'Z' = 2 * N ^ 3 ∧
    refTags N line_elems a b c d =
      .ok [Int.fdiv (N ^ 3 + ((c * N + a) * N + d)) line_elems,
           Int.fdiv (2 * N ^ 3 + ((d * N + b) * N + c)) line_elems,
           Int.fdiv ((a * N + d) * N + c) line_elems,
           Int.fdiv ((a * N + d) * N + c) line_elems] := by
  refine ⟨rfl, rfl, rfl, ?_⟩
  simp [refTags, tagsOfRefs, access_defs, tagOf, base, pyFloorDiv, hle,
    ok_bind]

/-- C3 witness at `N = 2`, `line_elems = 1`, `(a,b,c,d) = (0,1,1,0)`. -/
theorem c3_address_generation_witness :
    base 2 'X' = 0 ∧ base 2 'Y' = 2 ^ 3 ∧ base 2 'Z' = 2 * 2 ^ 3 ∧
    refTags 2 1 0 1 1 0 =
      .ok [Int.fdiv (2 ^ 3 + ((1 * 2 + 0) * 2 + 0)) 1,
           Int.fdiv (2 * 2 ^ 3 + ((0 * 2 + 1) * 2 + 1)) 1,
           Int.fdiv ((0 * 2 + 0) * 2 + 1) 1,
           Int.fdiv ((0 * 2 + 0) * 2 + 1) 1] :=
  c3_address_generation 2 1 (by decide) 0 1 1 0

/-- C6: for `cache_lines ≥ 1`, after any sequence of access operations
starting from the empty cache, the recency list has no duplicate tags and
its length never exceeds `cache_lines`. -/
theorem c6_cache_invariant (cache_lines : Int) (hcl : 1 ≤ cache_lines)
    (tags : List Int) (os : List Outcome) (stF : SimState)
    (h : runTags cache_lines ⟨[], 0, 0⟩ tags = .ok (os, stF)) :
    stF.cache.Nodup ∧ (stF.cache.length : Int) ≤ cache_lines :=
  runTags_inv tags cache_lines hcl ⟨[], 0, 0⟩
    ⟨List.nodup_nil, by simp; omega⟩ os stF h

/-- C6 witness: after accesses [5, 6] with `cache_lines = 1` the cache is
[6], duplicate-free and within capacity. -/
theorem c6_cache_invariant_witness :
    (⟨[6], 2, 2⟩ : SimState).cache.Nodup ∧
      (((⟨[6], 2, 2⟩ : SimState).cache.length : Int) ≤ 1) :=
  c6_cache_invariant 1 (by decide) [5, 6] [.miss, .miss] ⟨[6], 2, 2⟩ rfl

/-- C7: the driver enumerates exactly the 24 orderings of a, b, c, d in
the standard lexicographic permutation sequence of "abcd" (abcd first,
dcba last), and each ordering is simulated independently with a fresh empty
cache. -/
theorem c7_driver_enumeration (N cache_lines line_elems : Int) :
    permutations_abcd =
      [['a','b','c','d'], ['a','b','d','c'], ['a','c','b','d'],
       ['a','c','d','b'], ['a','d','b','c'], ['a','d','c','b'],
       ['b','a','c','d'], ['b','a','d','c'], ['b','c','a','d'],
       ['b','c','d','a'], ['b','d','a','c'], ['b','d','c','a'],
       ['c','a','b','d'], ['c','a','d','b'], ['c','b','a','d'],
       ['c','b','d','a'], ['c','d','a','b'], ['c','d','b','a'],
       ['d','a','b','c'], ['d','a','c','b'], ['d','b','a','c'],
       ['d','b','c','a'], ['d','c','a','b'], ['d','c','b','a']] ∧
    permutations_abcd.length = 24 ∧
    mainResults N cache_lines line_elems =
      permutations_abcd.map (fun order =>
        (order, simulate_permutation order N cache_lines line_elems)) ∧
    (¬ cache_lines < 0 → ∀ order : List Char,
      simulate_permutation order N cache_lines line_elems =
        (runSim order N cache_lines line_elems ⟨[], 0, 0⟩).map
          (fun st => (st.accesses, st.misses))) := by
  refine ⟨by decide, by decide, rfl, fun hncl order => ?_⟩
  simp only [simulate_permutation, if_neg hncl]

/-- C7 witness: the fresh-cache equation at a concrete configuration. -/
theorem c7_driver_enumeration_witness :
    simulate_permutation ['a', 'b', 'c', 'd'] 1 2 3 =
      (runSim ['a', 'b', 'c', 'd'] 1 2 3 ⟨[], 0, 0⟩).map
        (fun st => (st.accesses, st.misses)) :=
  (c7_driver_enumeration 1 2 3).2.2.2 (by decide) ['a', 'b', 'c', 'd']

/-- C5: for every valid configuration, in each innermost iteration the
third and fourth references carry the same tag; running the first three
accesses from any invariant-respecting state leaves that tag resident, so
the fourth access (the write to `X[a][d][c]`) is always a HIT; consequently
every full simulation has at most `3 * N^4` misses. -/
theorem c5_fourth_access_hits (N cache_lines line_elems : Int)
    (_hN : 1 ≤ N) (hcl : 1 ≤ cache_lines) (hle : 1 ≤ line_elems)
    (a b c d : Int) (st : SimState)
    (hst : st.cache.Nodup ∧ (st.cache.length : Int) ≤ cache_lines) :
    (∃ (t1 t2 t3 : Int) (os : List Outcome) (s3 st4 : SimState),
      refTags N line_elems a b c d = .ok [t1, t2, t3, t3] ∧
      runTags cache_lines st [t1, t2, t3] = .ok (os, s3) ∧
      access cache_lines s3 t3 = .ok (.hit, st4)) ∧
    (∀ order ∈ permutations_abcd, ∃ acc m : Nat,
      simulate_permutation order N cache_lines line_elems = .ok (acc, m) ∧
      m ≤ 3 * N.toNat ^ 4) := by
  have hle0 : line_elems ≠ 0 := by omega
  constructor
  · have hTags : refTags N line_elems a b c d =
        .ok [Int.fdiv (base N 'Y' + ((c * N + a) * N + d)) line_elems,
             Int.fdiv (base N 'Z' + ((d * N + b) * N + c)) line_elems,
             Int.fdiv (base N 'X' + ((a * N + d) * N + c)) line_elems,
             Int.fdiv (base N 'X' + ((a * N + d) * N + c)) line_elems] := by
      simp [refTags, tagsOfRefs, access_defs, tagOf, pyFloorDiv, hle0,
        ok_bind]
    obtain ⟨o1, s1, hacc1, hi1, _, _, hmem1, _⟩ :=
      access_good cache_lines hcl st
        (Int.fdiv (base N 'Y' + ((c * N + a) * N + d)) line_elems) hst
    obtain ⟨o2, s2, hacc2, hi2, _, _, hmem2, _⟩ :=
      access_good cache_lines hcl s1
        (Int.fdiv (base N 'Z' + ((d * N + b) * N + c)) line_elems) hi1
    obtain ⟨o3, s3, hacc3, hi3, _, _, hmem3, _⟩ :=
      access_good cache_lines hcl s2
        (Int.fdiv (base N 'X' + ((a * N + d) * N + c)) line_elems) hi2
    obtain ⟨o4, s4, hacc4, hi4, _, _, hmem4, hhit4⟩ :=
      access_good cache_lines hcl s3
        (Int.fdiv (base N 'X' + ((a * N + d) * N + c)) line_elems) hi3
    have ho4 : o4 = .hit := (hhit4 hmem3).1
    refine ⟨_, _, _, [o1, o2, o3], s3, s4, hTags, ?_, ?_⟩
    · rw [runTags_cons_ok cache_lines st _ _ o1 s1 hacc1,
        runTags_cons_ok cache_lines s1 _ _ o2 s2 hacc2,
        runTags_cons_ok cache_lines s2 _ _ o3 s3 hacc3]
      rfl
    · rw [← ho4]
      exact hacc4
  · intro order ho
    obtain ⟨⟨hka, hkb, hkc, hkd⟩, hlen⟩ := perms_keys order ho
    obtain ⟨stF, hrun, hinv, hacc, hm⟩ :=
      runSim_good order N cache_lines line_elems hcl hle0 hka hkb hkc hkd
        (le_of_eq hlen) ⟨[], 0, 0⟩ ⟨List.nodup_nil, by simp; omega⟩
    refine ⟨stF.accesses, stF.misses, ?_, ?_⟩
    · have hncl : ¬ cache_lines < 0 := by omega
      have hrun2 : runSim order N cache_lines line_elems ⟨[], 0, 0⟩ =
          Except.ok stF := hrun
      rw [simulate_permutation, if_neg hncl, hrun2, ok_map]
    · simpa using hm

/-- C5 witness at `N = 1`, `cache_lines = 1`, `line_elems = 1`,
`(a,b,c,d) = (0,0,0,0)`, empty start state. -/
theorem c5_fourth_access_hits_witness :
    (∃ (t1 t2 t3 : Int) (os : List Outcome) (s3 st4 : SimState),
      refTags 1 1 0 0 0 0 = .ok [t1, t2, t3, t3] ∧
      runTags 1 ⟨[], 0, 0⟩ [t1, t2, t3] = .ok (os, s3) ∧
      access 1 s3 t3 = .ok (.hit, st4)) ∧
    (∀ order ∈ permutations_abcd, ∃ acc m : Nat,
      simulate_permutation order 1 1 1 = .ok (acc, m) ∧
      m ≤ 3 * (1 : Int).toNat ^ 4) :=
  c5_fourth_access_hits 1 1 1 (by decide) (by decide) (by decide) 0 0 0 0
    ⟨[], 0, 0⟩ ⟨List.nodup_nil, by decide⟩
